import Mathlib

/-!
Verification of the transmission-line reflection / quarter-wave matching
calculator (`app.py`).

The program computes, over a 501-point frequency sweep centered on `fc`:
  * phase velocity `vp`, wavelength `lambda_c`,
  * the load reflection coefficient `s11 = (ZL - Z0)/(ZL + Z0)`,
  * the input reflection of a lossless line of impedance `Z0` cascaded with
    the load (`Gamma_before`) and its VSWR,
  * a quarter-wave transformer of impedance `Zt = sqrt (Z0 * |ZL|)` and the
    input reflection of transformer-plus-load (`Gamma_after`) and its VSWR.

The cascade operator of the underlying library (scikit-rf `connect`) inserts
an impedance-mismatch two-port when the two connected ports have different
reference impedances; `connect1` below models exactly that behaviour, with
the mismatch S-parameters taken from the library source
(`impedance_mismatch`).  Lines are "matched line" two-ports
(S11 = S22 = 0, S12 = S21 = exp (-gamma*d)) exactly as produced by
`DefinedGammaZ0.line`.
-/

namespace App

/-- Mirrors `vp = 3e8 / np.sqrt(er)` (app.py line 22). -/
noncomputable def vp (er : ℝ) : ℝ := 3e8 / Real.sqrt er

/-- Mirrors `lambda_c = vp / (fc * 1e9)` (app.py line 23), `fc` in GHz. -/
noncomputable def lambda_c (fc er : ℝ) : ℝ := vp er / (fc * 1e9)

/-- Mirrors `npoints=501` of `rf.Frequency(start=fc-1, stop=fc+1, npoints=501, unit='GHz')`. -/
def npoints : ℕ := 501

/-- The frequency samples in Hz: `numpy.linspace(fc-1, fc+1, 501) * 1e9`
(app.py lines 37-38). -/
noncomputable def f (fc : ℝ) (i : Fin npoints) : ℝ :=
  ((fc - 1) + (i.val : ℝ) * (((fc + 1) - (fc - 1)) / ((npoints : ℝ) - 1))) * 1e9

/-- Mirrors `beta = 2 * np.pi * f / vp` (app.py line 39). -/
noncomputable def beta (fc er : ℝ) (i : Fin npoints) : ℝ :=
  2 * Real.pi * f fc i / vp er

/-- Mirrors `gamma = 1j * beta` (app.py line 40). -/
noncomputable def gamma (fc er : ℝ) (i : Fin npoints) : ℂ :=
  Complex.I * (beta fc er i : ℂ)

/-- Mirrors `ZL = RL + 1j * XL` (app.py line 43). -/
def ZL (RL XL : ℝ) : ℂ := (RL : ℂ) + Complex.I * (XL : ℂ)

/-- Mirrors `s11 = (ZL - Z0) / (ZL + Z0)` (app.py line 47). -/
noncomputable def s11 (RL XL Z0 : ℝ) : ℂ := (ZL RL XL - (Z0 : ℂ)) / (ZL RL XL + (Z0 : ℂ))

/-- Mirrors `s = s11 * np.ones((len(freq), 1, 1))` (app.py line 48): the load's
reflection coefficient, one copy per frequency sample. -/
noncomputable def loadS (RL XL Z0 : ℝ) : Fin npoints → ℂ := fun _ => s11 RL XL Z0

/-- S-parameters of a two-port at one frequency sample. -/
structure STwo where
  s11 : ℂ
  s12 : ℂ
  s21 : ℂ
  s22 : ℂ

/-- Matched-line two-port produced by `media.line(d, unit='m')` for a
`DefinedGammaZ0` media: S11 = S22 = 0, S12 = S21 = exp (-gamma*d). -/
noncomputable def lineS (g : ℂ) (d : ℝ) : STwo :=
  ⟨0, Complex.exp (-(g * (d : ℂ))), Complex.exp (-(g * (d : ℂ))), 0⟩

/-- scikit-rf `impedance_mismatch(z1, z2)`: with `g = (z2 - z1)/(z2 + z1)`,
S11 = g, S22 = -g, S21 = (1+g)*sqrt(z1/z2), S12 = (1-g)*sqrt(z2/z1). -/
noncomputable def impedance_mismatch (z1 z2 : ℝ) : STwo :=
  ⟨((z2 : ℂ) - (z1 : ℂ)) / ((z2 : ℂ) + (z1 : ℂ)),
   (1 - ((z2 : ℂ) - (z1 : ℂ)) / ((z2 : ℂ) + (z1 : ℂ))) * (Real.sqrt (z2 / z1) : ℂ),
   (1 + ((z2 : ℂ) - (z1 : ℂ)) / ((z2 : ℂ) + (z1 : ℂ))) * (Real.sqrt (z1 / z2) : ℂ),
   -(((z2 : ℂ) - (z1 : ℂ)) / ((z2 : ℂ) + (z1 : ℂ)))⟩

/-- Terminating a two-port with a one-port of reflection `b`
(scikit-rf `connect_s` reduced to the 2-port/1-port case):
`S11 + S12*S21*b / (1 - S22*b)`. -/
noncomputable def terminate (A : STwo) (b : ℂ) : ℂ :=
  A.s11 + A.s12 * A.s21 * b / (1 - A.s22 * b)

/-- scikit-rf `connect` of a two-port (port reference `z0A`) with a one-port
(port reference `z0B`): when the references differ an impedance-mismatch
two-port is inserted at the junction. -/
noncomputable def connect1 (A : STwo) (z0A z0B : ℝ) (b : ℂ) : ℂ :=
  if z0A = z0B then terminate A b
  else terminate A (terminate (impedance_mismatch z0A z0B) b)

/-- Mirrors `network_before = line.line(length, unit='m') ** load` and
`Gamma_before = network_before.s[:, 0, 0]` (app.py lines 52, 55).
Both the line and the load are referenced to `Z0`. -/
noncomputable def Gamma_before (fc Z0 er RL XL length : ℝ) (i : Fin npoints) : ℂ :=
  connect1 (lineS (gamma fc er i) length) Z0 Z0 (loadS RL XL Z0 i)

/-- Mirrors `VSWR_before = (1 + abs(Gamma_before)) / (1 - abs(Gamma_before))` (app.py line 56). -/
noncomputable def VSWR_before (fc Z0 er RL XL length : ℝ) (i : Fin npoints) : ℝ :=
  (1 + Complex.abs (Gamma_before fc Z0 er RL XL length i)) /
    (1 - Complex.abs (Gamma_before fc Z0 er RL XL length i))

/-- Mirrors `Zt = np.sqrt(Z0 * abs(ZL))` (app.py line 59). -/
noncomputable def Zt (Z0 RL XL : ℝ) : ℝ := Real.sqrt (Z0 * Complex.abs (ZL RL XL))

/-- Mirrors `lambda4_length = lambda_c / 4` (app.py line 60). -/
noncomputable def lambda4_length (fc er : ℝ) : ℝ := lambda_c fc er / 4

/-- Mirrors `network_after = transformer.line(lambda4_length, unit='m') ** load` and
`Gamma_after = network_after.s[:, 0, 0]` (app.py lines 80-81, 84).  The
transformer's ports are referenced to `Zt`, the load to `Z0`. -/
noncomputable def Gamma_after (fc Z0 er RL XL : ℝ) (i : Fin npoints) : ℂ :=
  connect1 (lineS (gamma fc er i) (lambda4_length fc er)) (Zt Z0 RL XL) Z0 (loadS RL XL Z0 i)

/-- Mirrors `VSWR_after = (1 + abs(Gamma_after)) / (1 - abs(Gamma_after))` (app.py line 85). -/
noncomputable def VSWR_after (fc Z0 er RL XL : ℝ) (i : Fin npoints) : ℝ :=
  (1 + Complex.abs (Gamma_after fc Z0 er RL XL i)) /
    (1 - Complex.abs (Gamma_after fc Z0 er RL XL i))

/-- Mirrors `center_idx = len(f) // 2` (app.py line 127). -/
def center_idx : ℕ := npoints / 2

/-- The sweep index at which the summary snapshot is taken. -/
def centerFin : Fin npoints := ⟨center_idx, by decide⟩

/-- A matched line terminated by reflection `b` returns `b * exp (-2*g*d)`. -/
lemma terminate_lineS (g : ℂ) (d : ℝ) (b : ℂ) :
    terminate (lineS g d) b = b * Complex.exp (-(2 * (g * (d : ℂ)))) := by
  simp only [terminate, lineS, zero_mul, sub_zero, div_one, zero_add]
  rw [← Complex.exp_add]
  rw [show -(g * (d : ℂ)) + -(g * (d : ℂ)) = -(2 * (g * (d : ℂ))) by ring]
  ring

/-- Closed form for the before-matching input reflection coefficient. -/
lemma Gamma_before_eq (fc Z0 er RL XL length : ℝ) (i : Fin npoints) :
    Gamma_before fc Z0 er RL XL length i =
      s11 RL XL Z0 * Complex.exp (-(2 * (gamma fc er i * (length : ℂ)))) := by
  unfold Gamma_before connect1
  rw [if_pos rfl]
  exact terminate_lineS _ _ _

/-- The electrical-length factor has unit modulus: the exponent is purely
imaginary for a lossless line. -/
lemma abs_exp_gamma (fc er d : ℝ) (i : Fin npoints) :
    Complex.abs (Complex.exp (-(2 * (gamma fc er i * (d : ℂ))))) = 1 := by
  rw [show -(2 * (gamma fc er i * (d : ℂ)))
        = ((-2 * (beta fc er i * d) : ℝ) : ℂ) * Complex.I by
      simp only [gamma]; push_cast; ring]
  rw [Complex.abs_exp]
  simp [Complex.mul_re]

/-- The before-matching reflection magnitude equals the load reflection
magnitude at every frequency and for every length. -/
lemma abs_Gamma_before (fc Z0 er RL XL length : ℝ) (i : Fin npoints) :
    Complex.abs (Gamma_before fc Z0 er RL XL length i) = Complex.abs (s11 RL XL Z0) := by
  rw [Gamma_before_eq, map_mul, abs_exp_gamma, mul_one]

/-- C2: at every sweep frequency and for every line length, the
before-matching input reflection is the load reflection transformed through
the electrical length: `Gamma_before = s11 * exp (-2*theta)` with
`theta = gamma * length` and `gamma = I * 2*pi*f/vp`. -/
theorem C2_before_matching_transform : ∀ fc er Z0 RL XL length : ℝ, ∀ i : Fin npoints,
    Gamma_before fc Z0 er RL XL length i =
      s11 RL XL Z0 * Complex.exp (-(2 * (gamma fc er i * (length : ℂ)))) ∧
    gamma fc er i = Complex.I * ((2 * Real.pi * f fc i / vp er : ℝ) : ℂ) :=
  fun fc er Z0 RL XL length i => ⟨Gamma_before_eq fc Z0 er RL XL length i, rfl⟩

/-- C4: for a purely real load the before-matching reflection magnitude is
`|(RL - Z0)/(RL + Z0)|` at every sweep frequency and for every line length
(the curve is flat); for the matched load `ZL = Z0` the reflection is zero
and the VSWR is one everywhere, regardless of length. -/
theorem C4_flat_before_for_real_load : ∀ fc er Z0 RL length : ℝ, ∀ i : Fin npoints,
    Complex.abs (Gamma_before fc Z0 er RL 0 length i) = |(RL - Z0) / (RL + Z0)| ∧
    Gamma_before fc Z0 er Z0 0 length i = 0 ∧
    VSWR_before fc Z0 er Z0 0 length i = 1 := by
  intro fc er Z0 RL length i
  have hmatched : Gamma_before fc Z0 er Z0 0 length i = 0 := by
    rw [Gamma_before_eq]
    have : s11 Z0 0 Z0 = 0 := by
      simp [s11, ZL]
    rw [this, zero_mul]
  refine ⟨?_, hmatched, ?_⟩
  · rw [abs_Gamma_before]
    have : s11 RL 0 Z0 = (((RL - Z0) / (RL + Z0) : ℝ) : ℂ) := by
      simp only [s11, ZL]
      push_cast
      ring
    rw [this, Complex.abs_ofReal]
  · rw [VSWR_before, hmatched]
    simp

lemma sqrt_ratio_mul (z1 z2 : ℝ) (h1 : 0 < z1) (h2 : 0 < z2) :
    Real.sqrt (z2 / z1) * Real.sqrt (z1 / z2) = 1 := by
  rw [← Real.sqrt_mul (by positivity)]
  rw [show z2 / z1 * (z1 / z2) = 1 by field_simp]
  exact Real.sqrt_one

/-- The impedance-mismatch two-port terminated by the reflection of `Zl`
relative to `z2` produces the reflection of `Zl` relative to `z1`: the
junction re-references the reflection coefficient. -/
lemma terminate_mismatch (z1 z2 : ℝ) (h1 : 0 < z1) (h2 : 0 < z2) (Zl : ℂ)
    (hL2 : Zl + (z2 : ℂ) ≠ 0) (hL1 : Zl + (z1 : ℂ) ≠ 0) :
    terminate (impedance_mismatch z1 z2) ((Zl - (z2 : ℂ)) / (Zl + (z2 : ℂ))) =
      (Zl - (z1 : ℂ)) / (Zl + (z1 : ℂ)) := by
  have hz2 : ((z2 : ℝ) : ℂ) ≠ 0 := Complex.ofReal_ne_zero.mpr h2.ne'
  have hz12 : ((z2 : ℂ) + (z1 : ℂ)) ≠ 0 := by
    rw [show ((z2 : ℂ) + (z1 : ℂ)) = ((z2 + z1 : ℝ) : ℂ) by push_cast; ring]
    exact Complex.ofReal_ne_zero.mpr (by positivity)
  have hs : (Real.sqrt (z2 / z1) : ℂ) * (Real.sqrt (z1 / z2) : ℂ) = 1 := by
    rw [← Complex.ofReal_mul, sqrt_ratio_mul z1 z2 h1 h2, Complex.ofReal_one]
  simp only [terminate, impedance_mismatch]
  set g : ℂ := ((z2 : ℂ) - (z1 : ℂ)) / ((z2 : ℂ) + (z1 : ℂ)) with hg
  set b : ℂ := (Zl - (z2 : ℂ)) / (Zl + (z2 : ℂ)) with hb
  have hprod : (1 - g) * (Real.sqrt (z2 / z1) : ℂ) * ((1 + g) * (Real.sqrt (z1 / z2) : ℂ)) * b
      = (1 - g) * (1 + g) * b := by
    rw [show (1 - g) * (Real.sqrt (z2 / z1) : ℂ) * ((1 + g) * (Real.sqrt (z1 / z2) : ℂ)) * b
          = (1 - g) * (1 + g) * b * ((Real.sqrt (z2 / z1) : ℂ) * (Real.sqrt (z1 / z2) : ℂ))
        by ring, hs, mul_one]
  rw [hprod]
  have hD : (1 : ℂ) + g * b ≠ 0 := by
    have hDeq : (1 : ℂ) + g * b = (2 * z2 * (Zl + z1)) / (((z2 : ℂ) + z1) * (Zl + z2)) := by
      rw [hg, hb]
      field_simp
      ring
    rw [hDeq]
    exact div_ne_zero (mul_ne_zero (mul_ne_zero two_ne_zero hz2) hL1) (mul_ne_zero hz12 hL2)
  have step1 : g + (1 - g) * (1 + g) * b / (1 - -g * b) = (g + b) / (1 + g * b) := by
    rw [show (1 : ℂ) - -g * b = 1 + g * b by ring, add_div' _ _ _ hD,
        show g * (1 + g * b) + (1 - g) * (1 + g) * b = g + b by ring]
  rw [step1, div_eq_div_iff hD hL1, hg, hb]
  field_simp
  ring

/-- Closed form for the after-matching input reflection coefficient: the
load reflection re-referenced to the transformer impedance `Zt`, transformed
through the quarter-wave electrical length. -/
lemma Gamma_after_eq (fc er Z0 RL XL : ℝ) (i : Fin npoints)
    (hZ0 : 0 < Z0) (ht : 0 < Zt Z0 RL XL) (hne : Zt Z0 RL XL ≠ Z0)
    (hL0 : ZL RL XL + (Z0 : ℂ) ≠ 0) (hLt : ZL RL XL + (Zt Z0 RL XL : ℂ) ≠ 0) :
    Gamma_after fc Z0 er RL XL i =
      (ZL RL XL - (Zt Z0 RL XL : ℂ)) / (ZL RL XL + (Zt Z0 RL XL : ℂ)) *
        Complex.exp (-(2 * (gamma fc er i * (lambda4_length fc er : ℂ)))) := by
  unfold Gamma_after connect1
  rw [if_neg hne]
  rw [show loadS RL XL Z0 i = (ZL RL XL - (Z0 : ℂ)) / (ZL RL XL + (Z0 : ℂ)) from rfl]
  rw [terminate_mismatch (Zt Z0 RL XL) Z0 ht hZ0 (ZL RL XL) hL0 hLt]
  exact terminate_lineS _ _ _

lemma ZL_real (RL : ℝ) : ZL RL 0 = ((RL : ℝ) : ℂ) := by simp [ZL]

/-- Reflecting off the geometric mean is strictly closer to match than
reflecting off `z` itself, for a positive real load `a` different from `z`. -/
lemma geometric_mean_closer (a z : ℝ) (ha : 0 < a) (hz : 0 < z) (hne : a ≠ z) :
    |a - Real.sqrt (z * a)| / (a + Real.sqrt (z * a)) < |a - z| / (a + z) := by
  set t := Real.sqrt (z * a) with htdef
  have ht2 : t ^ 2 = z * a := Real.sq_sqrt (by positivity)
  have htpos : 0 < t := Real.sqrt_pos.mpr (by positivity)
  have hsq : 0 < (a - z) ^ 2 :=
    lt_of_le_of_ne (sq_nonneg _) (Ne.symm (pow_ne_zero 2 (sub_ne_zero.mpr hne)))
  have hRHS : (t * (a ^ 2 + z ^ 2)) ^ 2 = z * a * (a ^ 2 + z ^ 2) ^ 2 := by
    rw [mul_pow, ht2]
  have hKsq : (a * z * (a + z)) ^ 2 < (t * (a ^ 2 + z ^ 2)) ^ 2 := by
    rw [hRHS]
    have hquad : 0 < a ^ 2 + a * z + z ^ 2 := by positivity
    nlinarith [mul_pos (mul_pos (mul_pos ha hz) hsq) hquad]
  have hK : a * z * (a + z) < t * (a ^ 2 + z ^ 2) :=
    lt_of_pow_lt_pow_left₀ 2 (by positivity) hKsq
  rw [div_lt_div_iff₀ (by positivity) (by positivity)]
  apply lt_of_pow_lt_pow_left₀ 2 (by positivity)
  rw [mul_pow, mul_pow, sq_abs, sq_abs]
  nlinarith [ht2, mul_pos ha (sub_pos.mpr hK)]

/-- C3: for every purely real mismatched load, the after-matching reflection
magnitude at the center sample is strictly smaller than the before-matching
one, for every user line length. -/
theorem C3_matching_improves_at_center (fc er Z0 RL length : ℝ)
    (hZ0 : 0 < Z0) (hRL : 0 < RL) (hne : RL ≠ Z0) :
    Complex.abs (Gamma_after fc Z0 er RL 0 centerFin) <
      Complex.abs (Gamma_before fc Z0 er RL 0 length centerFin) := by
  have hZLr : ZL RL 0 = ((RL : ℝ) : ℂ) := ZL_real RL
  have habsZL : Complex.abs (ZL RL 0) = RL := by
    rw [hZLr, Complex.abs_ofReal, abs_of_pos hRL]
  have htZ : Zt Z0 RL 0 = Real.sqrt (Z0 * RL) := by rw [Zt, habsZL]
  have htpos : 0 < Zt Z0 RL 0 := by
    rw [htZ]; exact Real.sqrt_pos.mpr (by positivity)
  have htne : Zt Z0 RL 0 ≠ Z0 := by
    rw [htZ]
    intro h
    apply hne
    have h2 : Z0 * RL = Z0 ^ 2 := by
      have h3 := congrArg (fun x => x ^ 2) h
      simpa [Real.sq_sqrt (le_of_lt (mul_pos hZ0 hRL))] using h3
    exact mul_left_cancel₀ hZ0.ne' (by rw [h2]; ring : Z0 * RL = Z0 * Z0)
  have hL0 : ZL RL 0 + (Z0 : ℂ) ≠ 0 := by
    rw [hZLr, show ((RL : ℝ) : ℂ) + (Z0 : ℂ) = ((RL + Z0 : ℝ) : ℂ) by push_cast; ring]
    exact Complex.ofReal_ne_zero.mpr (ne_of_gt (by linarith))
  have hLt : ZL RL 0 + ((Zt Z0 RL 0 : ℝ) : ℂ) ≠ 0 := by
    rw [hZLr, show ((RL : ℝ) : ℂ) + ((Zt Z0 RL 0 : ℝ) : ℂ)
          = ((RL + Zt Z0 RL 0 : ℝ) : ℂ) by push_cast; ring]
    exact Complex.ofReal_ne_zero.mpr (ne_of_gt (by linarith))
  have habs_after : Complex.abs (Gamma_after fc Z0 er RL 0 centerFin)
      = |RL - Zt Z0 RL 0| / (RL + Zt Z0 RL 0) := by
    rw [Gamma_after_eq fc er Z0 RL 0 centerFin hZ0 htpos htne hL0 hLt, map_mul,
        abs_exp_gamma, mul_one, hZLr,
        show ((RL : ℝ) : ℂ) - ((Zt Z0 RL 0 : ℝ) : ℂ)
          = ((RL - Zt Z0 RL 0 : ℝ) : ℂ) by push_cast; ring,
        show ((RL : ℝ) : ℂ) + ((Zt Z0 RL 0 : ℝ) : ℂ)
          = ((RL + Zt Z0 RL 0 : ℝ) : ℂ) by push_cast; ring,
        map_div₀, Complex.abs_ofReal, Complex.abs_ofReal,
        abs_of_pos (show (0 : ℝ) < RL + Zt Z0 RL 0 by linarith)]
  have habs_before : Complex.abs (Gamma_before fc Z0 er RL 0 length centerFin)
      = |RL - Z0| / (RL + Z0) := by
    rw [abs_Gamma_before,
        show s11 RL 0 Z0 = (((RL - Z0) / (RL + Z0) : ℝ) : ℂ) by
          simp only [s11, ZL]; push_cast; ring,
        Complex.abs_ofReal, abs_div, abs_of_pos (show (0 : ℝ) < RL + Z0 by linarith)]
  rw [habs_after, habs_before, htZ]
  exact geometric_mean_closer RL Z0 hRL hZ0 hne

/-- C3 witness: the concrete default scenario of the app. -/
theorem C3_matching_improves_witness :
    Complex.abs (Gamma_after 2.4 50 1 75 0 centerFin) <
      Complex.abs (Gamma_before 2.4 50 1 75 0 1 centerFin) :=
  C3_matching_improves_at_center 2.4 1 50 75 1 (by norm_num) (by norm_num) (by norm_num)

/-- C7: for every permittivity and center frequency, the phase velocity is
`3e8 / sqrt er` and the center wavelength is `vp / fc` with `fc` in Hz
(`fc * 1e9`, the widget value being in GHz). -/
theorem C7_velocity_and_wavelength : ∀ er fc : ℝ,
    vp er = 3e8 / Real.sqrt er ∧ lambda_c fc er = vp er / (fc * 1e9) :=
  fun _ _ => ⟨rfl, rfl⟩

/-- C6: the quarter-wave transformer impedance is the (real, nonnegative)
closed form `sqrt (Z0 * |ZL|)` and its physical length is `lambda_c / 4`. -/
theorem C6_transformer_closed_form : ∀ Z0 RL XL fc er : ℝ,
    Zt Z0 RL XL = Real.sqrt (Z0 * Complex.abs (ZL RL XL)) ∧
    0 ≤ Zt Z0 RL XL ∧
    lambda4_length fc er = lambda_c fc er / 4 :=
  fun _ _ _ _ _ => ⟨rfl, Real.sqrt_nonneg _, rfl⟩

/-- C5: the load reflection coefficient is the single complex scalar
`(ZL - Z0)/(ZL + Z0)` and the very same value is used at every frequency
sample of the sweep. -/
theorem C5_load_reflection_constant : ∀ RL XL Z0 : ℝ,
    (∀ i : Fin npoints,
      loadS RL XL Z0 i = (ZL RL XL - (Z0 : ℂ)) / (ZL RL XL + (Z0 : ℂ))) ∧
    (∀ i j : Fin npoints, loadS RL XL Z0 i = loadS RL XL Z0 j) :=
  fun _ _ _ => ⟨fun _ => rfl, fun _ _ => rfl⟩

lemma sqrt3750_gt : (61.2 : ℝ) < Real.sqrt 3750 := by
  rw [Real.lt_sqrt (by norm_num)]
  norm_num

lemma sqrt3750_lt : Real.sqrt 3750 < 61.3 := by
  rw [Real.sqrt_lt' (by norm_num)]
  norm_num

/-- The default transformer impedance: `sqrt (50 * 75)`. -/
lemma Zt_default : Zt 50 75 0 = Real.sqrt 3750 := by
  rw [Zt, ZL_real, Complex.abs_ofReal]
  norm_num

lemma vp_one : vp 1 = 3e8 := by
  rw [vp, Real.sqrt_one]
  norm_num

lemma lambda4_default : lambda4_length 2.4 1 = 0.03125 := by
  rw [lambda4_length, lambda_c, vp_one]
  norm_num

lemma f_center_default : f 2.4 centerFin = 2.4e9 := by
  simp only [f]
  rw [show ((centerFin.val : ℕ) : ℝ) = 250 from by
    norm_num [centerFin, center_idx, npoints]]
  norm_num [npoints]

/-- At the center sample the quarter-wave electrical length is `pi/2`. -/
lemma beta_center_default :
    beta 2.4 1 centerFin * lambda4_length 2.4 1 = Real.pi / 2 := by
  rw [beta, f_center_default, vp_one, lambda4_default]
  ring

/-- The round-trip phase factor of the quarter-wave line at the center
sample is `exp (-i*pi) = -1`. -/
lemma exp_center_default :
    Complex.exp (-(2 * (gamma 2.4 1 centerFin * ((lambda4_length 2.4 1 : ℝ) : ℂ)))) = -1 := by
  have h1 : (2 : ℂ) * (gamma 2.4 1 centerFin * ((lambda4_length 2.4 1 : ℝ) : ℂ))
      = (Real.pi : ℂ) * Complex.I := by
    rw [gamma,
        show (2 : ℂ) * (Complex.I * ((beta 2.4 1 centerFin : ℝ) : ℂ) *
            ((lambda4_length 2.4 1 : ℝ) : ℂ))
          = (((2 * (beta 2.4 1 centerFin * lambda4_length 2.4 1) : ℝ)) : ℂ) * Complex.I from by
          push_cast; ring,
        beta_center_default, show (2 : ℝ) * (Real.pi / 2) = Real.pi from by ring]
  rw [h1, Complex.exp_neg, Complex.exp_pi_mul_I]
  norm_num

/-- C1: in the default scenario (fc = 2.4 GHz, Z0 = 50, er = 1, RL = 75,
XL = 0) the transformer impedance is `sqrt 3750` (between 61.2 and 61.3, so
about 61.24 as documented), but the after-matching reflection at the center
sample is NOT zero: the cascade re-references the reflection to the
transformer impedance `Zt`, giving `(sqrt 3750 - 75)/(sqrt 3750 + 75)`, of
magnitude greater than 0.1, and the after-matching VSWR is not 1. -/
theorem C1_center_after_matching_nonzero :
    Zt 50 75 0 = Real.sqrt 3750 ∧
    61.2 < Real.sqrt 3750 ∧ Real.sqrt 3750 < 61.3 ∧
    Gamma_after 2.4 50 1 75 0 centerFin
      = (((Real.sqrt 3750 - 75) / (Real.sqrt 3750 + 75) : ℝ) : ℂ) ∧
    0.1 < Complex.abs (Gamma_after 2.4 50 1 75 0 centerFin) ∧
    VSWR_after 2.4 50 1 75 0 centerFin ≠ 1 := by
  have hgt := sqrt3750_gt
  have hlt := sqrt3750_lt
  have hZt := Zt_default
  set s := Real.sqrt 3750 with hs
  have htpos : 0 < Zt 50 75 0 := by rw [hZt]; linarith
  have htne : Zt 50 75 0 ≠ 50 := by
    rw [hZt]; intro h; rw [h] at hgt; norm_num at hgt
  have hL0 : ZL 75 0 + ((50 : ℝ) : ℂ) ≠ 0 := by
    rw [ZL_real, show ((75 : ℝ) : ℂ) + ((50 : ℝ) : ℂ) = ((125 : ℝ) : ℂ) from by
      push_cast; norm_num]
    exact Complex.ofReal_ne_zero.mpr (by norm_num)
  have hLt : ZL 75 0 + ((Zt 50 75 0 : ℝ) : ℂ) ≠ 0 := by
    rw [ZL_real, hZt, show ((75 : ℝ) : ℂ) + ((s : ℝ) : ℂ) = ((75 + s : ℝ) : ℂ) from by
      push_cast; ring]
    exact Complex.ofReal_ne_zero.mpr (by linarith)
  have hG : Gamma_after 2.4 50 1 75 0 centerFin = (((s - 75) / (s + 75) : ℝ) : ℂ) := by
    rw [Gamma_after_eq 2.4 1 50 75 0 centerFin (by norm_num) htpos htne hL0 hLt,
        exp_center_default, ZL_real, hZt]
    push_cast
    ring
  have habs : Complex.abs (Gamma_after 2.4 50 1 75 0 centerFin) = (75 - s) / (s + 75) := by
    rw [hG, Complex.abs_ofReal, abs_div, abs_of_neg (by linarith : s - 75 < 0),
        abs_of_pos (by linarith : (0 : ℝ) < s + 75)]
    ring
  have h01 : 0.1 < Complex.abs (Gamma_after 2.4 50 1 75 0 centerFin) := by
    rw [habs, lt_div_iff₀ (by linarith)]
    linarith
  have hne1 : VSWR_after 2.4 50 1 75 0 centerFin ≠ 1 := by
    rw [VSWR_after, habs]
    have hapos : 0 < (75 - s) / (s + 75) := div_pos (by linarith) (by linarith)
    have hlt1 : (75 - s) / (s + 75) < 1 := by
      rw [div_lt_one (by linarith)]; linarith
    have hden : (1 : ℝ) - (75 - s) / (s + 75) ≠ 0 := by linarith
    intro h
    field_simp [hden] at h
    have h2s : s + 75 - (75 - s) ≠ 0 := by intro h0; linarith
    rw [div_eq_one_iff_eq h2s] at h
    linarith
  exact ⟨hZt, hgt, hlt, hG, h01, hne1⟩

/-- C8: the sweep has exactly 501 samples (the domain of `f`), is strictly
increasing, spans `[fc - 1, fc + 1]` GHz (in Hz after scaling), has `fc`
exactly at the middle sample, and the snapshot index `center_idx = 501 / 2`
is that middle sample. -/
theorem C8_sweep_shape (fc : ℝ) :
    npoints = 501 ∧ center_idx = 250 ∧ centerFin.val = center_idx ∧
    StrictMono (f fc) ∧
    f fc ⟨0, by decide⟩ = (fc - 1) * 1e9 ∧
    f fc ⟨500, by decide⟩ = (fc + 1) * 1e9 ∧
    f fc centerFin = fc * 1e9 := by
  have hstep : ((fc + 1) - (fc - 1)) / ((npoints : ℝ) - 1) = 1 / 250 := by
    rw [show (fc + 1) - (fc - 1) = 2 by ring]
    norm_num [npoints]
  refine ⟨rfl, rfl, rfl, ?_, ?_, ?_, ?_⟩
  · intro i j h
    have h' : i.val < j.val := h
    have hv : (i.val : ℝ) < (j.val : ℝ) := Nat.cast_lt.mpr h'
    simp only [f]
    rw [hstep]
    nlinarith [hv]
  · simp [f]
  · simp only [f]
    rw [hstep, show ((⟨500, by decide⟩ : Fin npoints).val : ℝ) = 500 from by norm_num]
    ring
  · simp only [f]
    rw [hstep, show ((centerFin.val : ℕ) : ℝ) = 250 from by norm_num [centerFin, center_idx, npoints]]
    ring

/-- C10: under the widget input contract `0.1 ≤ RL` and `1 ≤ Z0`, the load
denominator `ZL + Z0` is nonzero, the load reflection satisfies `|s11| < 1`,
hence `|Gamma_before| < 1` at every sweep sample and every length, the VSWR
denominator `1 - |Gamma_before|` is positive and the VSWR is at least 1:
the division-by-zero case is unreachable under the input contract. -/
theorem C10_vswr_well_defined (fc er Z0 RL XL length : ℝ)
    (hRL : 0.1 ≤ RL) (hZ0 : 1 ≤ Z0) (i : Fin npoints) :
    ZL RL XL + (Z0 : ℂ) ≠ 0 ∧
    Complex.abs (s11 RL XL Z0) < 1 ∧
    Complex.abs (Gamma_before fc Z0 er RL XL length i) < 1 ∧
    0 < 1 - Complex.abs (Gamma_before fc Z0 er RL XL length i) ∧
    1 ≤ VSWR_before fc Z0 er RL XL length i := by
  have hden : ZL RL XL + (Z0 : ℂ) ≠ 0 := by
    intro h
    have hre := congrArg Complex.re h
    simp [ZL, Complex.add_re, Complex.mul_re] at hre
    linarith
  have habs : Complex.abs (s11 RL XL Z0) < 1 := by
    rw [s11, map_div₀, div_lt_one (Complex.abs.pos hden)]
    apply lt_of_pow_lt_pow_left₀ 2 (Complex.abs.nonneg _)
    rw [Complex.sq_abs, Complex.sq_abs]
    simp only [ZL, Complex.normSq_apply, Complex.add_re, Complex.add_im,
      Complex.sub_re, Complex.sub_im, Complex.mul_re, Complex.mul_im,
      Complex.I_re, Complex.I_im, Complex.ofReal_re, Complex.ofReal_im]
    nlinarith [sq_nonneg XL]
  have habsG : Complex.abs (Gamma_before fc Z0 er RL XL length i) < 1 := by
    rw [abs_Gamma_before]; exact habs
  refine ⟨hden, habs, habsG, by linarith, ?_⟩
  rw [VSWR_before, one_le_div (by linarith)]
  have := Complex.abs.nonneg (Gamma_before fc Z0 er RL XL length i)
  linarith

/-- C10 witness: a concrete in-range input (the app's defaults). -/
theorem C10_vswr_well_defined_witness :
    ZL 75 50 + ((50 : ℝ) : ℂ) ≠ 0 ∧
    Complex.abs (s11 75 50 50) < 1 ∧
    Complex.abs (Gamma_before 2.4 50 1 75 50 1 centerFin) < 1 ∧
    0 < 1 - Complex.abs (Gamma_before 2.4 50 1 75 50 1 centerFin) ∧
    1 ≤ VSWR_before 2.4 50 1 75 50 1 centerFin :=
  C10_vswr_well_defined 2.4 1 50 75 50 1 (by norm_num) (by norm_num) centerFin

end App
